import Mathlib

/-! Verification of the athenadef planner/differ core: the target-selection
predicate language, the query-execution polling loop and its bounded fan-out,
DDL normalization, and the local/remote diff engine. Rust HashMap values are
embedded as association lists with distinct keys; machine strings are embedded
as Lean strings (lists of characters). -/

namespace Athenadef

/-! ## Association lists (embedding of std HashMap) -/

/-- Lookup in an association list; embeds HashMap::get. -/
def lookupA {α : Type} : List (String × α) → String → Option α
  | [], _ => none
  | (k, v) :: rest, key => if k = key then some v else lookupA rest key

/-- Embeds HashMap::contains_key. -/
def containsKeyA {α : Type} (m : List (String × α)) (key : String) : Bool :=
  (lookupA m key).isSome

/-- Embeds HashMap::insert: replaces the binding when the key is present,
otherwise adds a new binding. -/
def insertA {α : Type} : List (String × α) → String → α → List (String × α)
  | [], key, v => [(key, v)]
  | (k, w) :: rest, key, v =>
      if k = key then (key, v) :: rest else (k, w) :: insertA rest key v

/-- The keys of an association list. -/
def keysA {α : Type} (m : List (String × α)) : List String := m.map Prod.fst

/-! ## Character-list string primitives

The Rust code works on byte strings through the std str API. The embedding
works on the underlying character lists, with structurally recursive
implementations of the std primitives used by the sources (split, trim,
lowercase, prefix and suffix tests), so that every definition evaluates
inside the kernel. -/

/-- Embeds str::split(sep) for a one-character separator (auxiliary). -/
def splitOnCharAux (sep : Char) : List Char → List Char → List (List Char)
  | [], acc => [acc.reverse]
  | c :: rest, acc =>
      if c = sep then acc.reverse :: splitOnCharAux sep rest []
      else splitOnCharAux sep rest (c :: acc)

/-- Embeds str::split(sep) for a one-character separator. -/
def splitOnChar (sep : Char) (l : List Char) : List (List Char) :=
  splitOnCharAux sep l []

/-- Embeds str::trim_end (Unicode-whitespace suffix removal). -/
def charTrimEnd (l : List Char) : List Char :=
  (l.reverse.dropWhile Char.isWhitespace).reverse

/-- Embeds str::trim (whitespace removal at both ends). -/
def charTrim (l : List Char) : List Char :=
  charTrimEnd (l.dropWhile Char.isWhitespace)

/-- Embeds str::to_lowercase on the characters the sources feed it. -/
def charToLower (l : List Char) : List Char := l.map Char.toLower

/-- Embeds str::starts_with for a string pattern. -/
def startsWithChars : List Char → List Char → Bool
  | [], _ => true
  | _ :: _, [] => false
  | p :: ps, c :: cs => p = c && startsWithChars ps cs

/-- Embeds str::contains for a one-character pattern. -/
def containsChar (l : List Char) (c : Char) : Bool := l.any fun d => d = c

/-- Embeds str::ends_with for a one-character pattern. -/
def endsWithChar (l : List Char) (c : Char) : Bool :=
  match l.reverse with
  | [] => false
  | d :: _ => d = c

/-! ## Target filter (src/target_filter.rs) -/

/-- Matching against a dot-star regex atom followed by the matcher for the
rest of the pattern: the dot-star consumes zero or more leading characters,
none of which may be a newline, because the regex dot does not match a
newline under the regex crate's default flags. -/
def globStar (f : List Char → Bool) : List Char → Bool
  | [] => f []
  | d :: vt => f (d :: vt) || (d ≠ '\n' && globStar f vt)

/-- Denotation of the anchored regex that matches_pattern builds from a segment
pattern: the pattern is regex-escaped and each escaped star is replaced by
dot-star, so a star matches zero or more non-newline characters and every
other character matches only itself, case-sensitively, over the whole
segment. -/
def globMatchFn : List Char → List Char → Bool
  | [] => fun v => v.isEmpty
  | c :: p =>
      if c = '*' then globStar (globMatchFn p)
      else fun v =>
        match v with
        | [] => false
        | d :: vt => d = c && globMatchFn p vt

/-- The value-first spelling of the anchored wildcard match. -/
def globMatch (v p : List Char) : Bool := globMatchFn p v

/-- Embeds matches_pattern (src/target_filter.rs lines 81-98): a bare star
pattern matches everything through a shortcut that bypasses the regex (so it
alone also accepts values containing newlines); otherwise the value is
matched against the anchored wildcard regex built from the pattern. The
regex construction never fails on an escaped pattern, so the exact-match
fallback is unreachable. -/
def matches_pattern (value pat : String) : Bool :=
  if pat = "*" then true
  else globMatch value.data pat.data

/-- The patterns surviving compilation in parse_target_filter: each target is
split on dots and kept only when it has exactly two segments. -/
def surviving_patterns (targets : List String) : List (String × String) :=
  targets.filterMap fun target =>
    let parts := splitOnChar '.' target.data
    if h : parts.length = 2 then
      some (String.mk (parts.get ⟨0, by omega⟩), String.mk (parts.get ⟨1, by omega⟩))
    else none

/-- Embeds parse_target_filter (src/target_filter.rs lines 46-71): an empty
target list yields the constantly-true predicate; otherwise the predicate
checks whether any surviving pattern matches both segments. -/
def parse_target_filter (targets : List String) : String → String → Bool :=
  if targets.isEmpty then fun _ _ => true
  else fun database table =>
    (surviving_patterns targets).any fun pq =>
      matches_pattern database pq.1 && matches_pattern table pq.2

/-! ## Diff result types (src/types/diff_result.rs) -/

inductive ColumnChangeType where
  | added
  | removed
  | typeChanged
deriving DecidableEq

structure ColumnChange where
  change_type : ColumnChangeType
  column_name : String
  old_type : Option String
  new_type : Option String
deriving DecidableEq

structure PropertyChange where
  property_name : String
  old_value : Option String
  new_value : Option String
deriving DecidableEq

structure ChangeDetails where
  column_changes : List ColumnChange
  property_changes : List PropertyChange
deriving DecidableEq

inductive DiffOperation where
  | create
  | update
  | delete
  | noChange
deriving DecidableEq

structure TableDiff where
  database_name : String
  table_name : String
  operation : DiffOperation
  text_diff : Option String
  change_details : Option ChangeDetails
deriving DecidableEq

structure DiffSummary where
  to_add : Nat
  to_change : Nat
  to_destroy : Nat
deriving DecidableEq

structure DiffResult where
  no_change : Bool
  summary : DiffSummary
  table_diffs : List TableDiff
deriving DecidableEq

/-- Embeds DiffSummary::from_table_diffs (src/types/diff_result.rs lines
92-110): counts of Create, Update and Delete entries. -/
def DiffSummary.from_table_diffs (table_diffs : List TableDiff) : DiffSummary :=
  { to_add := (table_diffs.filter fun d => d.operation = DiffOperation.create).length
    to_change := (table_diffs.filter fun d => d.operation = DiffOperation.update).length
    to_destroy := (table_diffs.filter fun d => d.operation = DiffOperation.delete).length }

/-- Embeds the DiffResult assembly at the end of Differ::calculate_diff
(src/differ.rs lines 68-75): the summary is derived from the table diffs and
no_change is derived from the summary counts. -/
def diffResultOfTableDiffs (table_diffs : List TableDiff) : DiffResult :=
  let summary := DiffSummary.from_table_diffs table_diffs
  { no_change := summary.to_add == 0 && summary.to_change == 0 && summary.to_destroy == 0
    summary := summary
    table_diffs := table_diffs }

/-! ## Wildcard matching lemmas -/

theorem globMatch_nil_right (v : List Char) : globMatch v [] = true ↔ v = [] := by
  cases v <;> simp [globMatch, globMatchFn]

theorem globMatch_lit {c : Char} (hc : c ≠ '*') (p : List Char) (v : List Char) :
    globMatch v (c :: p) = true ↔ ∃ vt, v = c :: vt ∧ globMatch vt p = true := by
  cases v with
  | nil => simp [globMatch, globMatchFn, hc]
  | cons d vt =>
      constructor
      · intro h
        simp only [globMatch, globMatchFn, if_neg hc, Bool.and_eq_true,
          decide_eq_true_eq] at h
        exact ⟨vt, by rw [h.1], h.2⟩
      · rintro ⟨vt2, heq, hm⟩
        cases heq
        simp only [globMatch, globMatchFn, if_neg hc, Bool.and_eq_true,
          decide_eq_true_eq, true_and]
        exact hm

theorem globMatch_star_eq (p v : List Char) :
    globMatch v ('*' :: p) = globStar (globMatchFn p) v := by
  simp [globMatch, globMatchFn]

theorem globMatch_star_of {p v : List Char} (h : globMatch v p = true) :
    globMatch v ('*' :: p) = true := by
  rw [globMatch_star_eq]
  cases v with
  | nil => exact h
  | cons d vt => simp only [globStar, Bool.or_eq_true]; exact Or.inl h

theorem globMatch_star (p v : List Char) :
    globMatch v ('*' :: p) = true ↔
      ∃ v1 v2, v = v1 ++ v2 ∧ '\n' ∉ v1 ∧ globMatch v2 p = true := by
  constructor
  · intro h
    rw [globMatch_star_eq] at h
    induction v with
    | nil => exact ⟨[], [], rfl, by simp, h⟩
    | cons d vt ih =>
        simp only [globStar, Bool.or_eq_true, Bool.and_eq_true,
          decide_eq_true_eq] at h
        rcases h with h | ⟨hd, h⟩
        · exact ⟨[], d :: vt, rfl, by simp, h⟩
        · rcases ih h with ⟨v1, v2, hv, hnl, hm⟩
          refine ⟨d :: v1, v2, by simp [hv], ?_, hm⟩
          intro hx
          rcases List.mem_cons.mp hx with h1 | h1
          · exact hd h1.symm
          · exact hnl h1
  · rintro ⟨v1, v2, rfl, hnl, hm⟩
    rw [globMatch_star_eq]
    induction v1 with
    | nil => exact (globMatch_star_eq p v2) ▸ globMatch_star_of hm
    | cons c v1 ih =>
        simp only [List.cons_append, globStar, Bool.or_eq_true,
          Bool.and_eq_true, decide_eq_true_eq]
        refine Or.inr ⟨?_, ?_⟩
        · intro he
          exact hnl (by rw [he]; exact List.mem_cons_self _ _)
        · exact ih fun hx => hnl (List.mem_cons_of_mem c hx)

/-- C7 counterexample: under the claim, the star in "a*b" would match the
one-character segment consisting of a newline, since a split of "a\nb" with a
matching remainder exists; but the program's anchored regex rejects it,
because the regex dot never matches a newline. -/
theorem c7_counterexample :
    matches_pattern "a\nb" "a*b" = false ∧
    globMatch ['\n', 'b'] ['*', 'b'] = false ∧
    (∃ v1 v2, ['\n', 'b'] = v1 ++ v2 ∧ globMatch v2 ['b'] = true) := by
  refine ⟨by decide, by decide, ⟨['\n'], ['b'], rfl, by decide⟩⟩

/-- C7 amended: segment-pattern matching is anchored over the whole segment:
the bare pattern consisting of a single star matches every value through a
shortcut; in any other pattern a star matches zero or more characters none of
which is a newline (the regex dot excludes newlines), and every other pattern
character matches only itself, case-sensitively; the pattern "*.customers"
matches ("sales","customers") and ("mkt","customers") but not
("sales","orders"). -/
theorem c7_segment_matching :
    (∀ v : List Char, globMatch v [] = true ↔ v = []) ∧
    (∀ (c : Char) (p v : List Char), c ≠ '*' →
      (globMatch v (c :: p) = true ↔ ∃ vt, v = c :: vt ∧ globMatch vt p = true)) ∧
    (∀ p v : List Char,
      globMatch v ('*' :: p) = true ↔
        ∃ v1 v2, v = v1 ++ v2 ∧ '\n' ∉ v1 ∧ globMatch v2 p = true) ∧
    (∀ value : String, matches_pattern value "*" = true) ∧
    (∀ value pat : String, pat ≠ "*" →
      matches_pattern value pat = globMatch value.data pat.data) ∧
    parse_target_filter ["*.customers"] "sales" "customers" = true ∧
    parse_target_filter ["*.customers"] "mkt" "customers" = true ∧
    parse_target_filter ["*.customers"] "sales" "orders" = false := by
  refine ⟨globMatch_nil_right, fun c p v hc => globMatch_lit hc p v,
    globMatch_star, fun value => ?_, fun value pat hpat => ?_,
    by decide, by decide, by decide⟩
  · unfold matches_pattern
    rw [if_pos rfl]
  · unfold matches_pattern
    rw [if_neg hpat]

/-- C7 witness: the literal-character characterization applied at the concrete
pattern "a" and value "a", and the regex agreement applied at a concrete
non-star pattern. -/
theorem c7_segment_matching_witness :
    (('a' : Char) ≠ '*') ∧
      (globMatch ['a'] ['a'] = true ↔
        ∃ vt, ['a'] = 'a' :: vt ∧ globMatch vt [] = true) ∧
      matches_pattern "sales" "s*s" = globMatch "sales".data "s*s".data := by
  exact ⟨by decide, c7_segment_matching.2.1 'a' [] ['a'] (by decide),
    c7_segment_matching.2.2.2.2.1 "sales" "s*s" (by decide)⟩

/-- C2 counterexample: the non-empty, all-malformed pattern list ["invalid"]
compiles to zero surviving patterns, yet the compiled predicate rejects
("salesdb", "customers") instead of accepting every pair. -/
theorem c2_counterexample :
    surviving_patterns ["invalid"] = [] ∧
    parse_target_filter ["invalid"] "salesdb" "customers" = false := by
  constructor <;> decide

/-- C2 amended: when zero patterns survive compilation, the compiled predicate
is constantly true exactly when the input pattern list was itself empty; a
non-empty list whose patterns are all malformed yields the constantly-false
predicate. -/
theorem c2_zero_surviving (targets : List String) (db table : String)
    (h : surviving_patterns targets = []) :
    parse_target_filter targets db table = targets.isEmpty := by
  unfold parse_target_filter
  cases ht : targets.isEmpty
  · simp [ht, h]
  · simp [ht]

/-- C2 witness: the amended statement evaluated at the concrete malformed
input ["invalid"]. -/
theorem c2_zero_surviving_witness :
    parse_target_filter ["invalid"] "salesdb" "customers"
      = (["invalid"] : List String).isEmpty :=
  c2_zero_surviving ["invalid"] "salesdb" "customers" (by decide)

/-- C5: in an assembled DiffResult the no_change flag is true exactly when the
three summary counts are zero, and those counts are the numbers of Create,
Update and Delete entries in the table-diff list. -/
theorem c5_no_change_iff (tds : List TableDiff) :
    ((diffResultOfTableDiffs tds).no_change = true ↔
      (diffResultOfTableDiffs tds).summary.to_add = 0 ∧
      (diffResultOfTableDiffs tds).summary.to_change = 0 ∧
      (diffResultOfTableDiffs tds).summary.to_destroy = 0) ∧
    (diffResultOfTableDiffs tds).summary.to_add
        = (tds.filter fun d => d.operation = DiffOperation.create).length ∧
    (diffResultOfTableDiffs tds).summary.to_change
        = (tds.filter fun d => d.operation = DiffOperation.update).length ∧
    (diffResultOfTableDiffs tds).summary.to_destroy
        = (tds.filter fun d => d.operation = DiffOperation.delete).length := by
  simp [diffResultOfTableDiffs, DiffSummary.from_table_diffs, and_assoc]

/-! ## Query execution (src/types/query_execution.rs, src/aws/athena.rs) -/

inductive QueryExecutionStatus where
  | queued
  | running
  | succeeded
  | failed
  | cancelled
deriving DecidableEq

structure QueryRow where
  columns : List String
deriving DecidableEq

structure QueryResult where
  execution_id : String
  status : QueryExecutionStatus
  error_message : Option String
  rows : List QueryRow
deriving DecidableEq

/-- The SDK QueryExecutionState enum is non-exhaustive: a state string the SDK
does not recognize decodes to a catch-all variant carrying the raw value. -/
inductive QueryExecutionState where
  | queued
  | running
  | succeeded
  | failed
  | cancelled
  | unknownState (raw : String)
deriving DecidableEq

inductive PollAction where
  | finish (r : Except String Unit)
  | continuePolling

/-- Embeds one iteration of the match in QueryExecutor::wait_for_completion
(src/aws/athena.rs lines 124-151): the decision taken after one status poll,
given the state and the state-change reason of the response. -/
def wait_step (state : Option QueryExecutionState)
    (state_change_reason : Option String) : PollAction :=
  match state with
  | some .succeeded => .finish (.ok ())
  | some .failed =>
      .finish (.error ("Query execution failed: "
        ++ state_change_reason.getD "Unknown error"))
  | some .cancelled => .finish (.error "Query execution was cancelled")
  | some .queued => .continuePolling
  | some .running => .continuePolling
  | none => .finish (.error "Query execution state not available")
  | some (.unknownState _) => .continuePolling

/-- Embeds the wait_for_completion polling loop: the timeout budget is
modelled by the list of status responses the service returns before the
deadline, and exhausting the list is the elapsed-timeout check at the top of
the loop. -/
def wait_for_completion
    (polls : List (Option QueryExecutionState × Option String)) :
    Except String Unit :=
  match polls with
  | [] => .error "Query execution timed out"
  | (st, reason) :: rest =>
      match wait_step st reason with
      | .finish r => r
      | .continuePolling => wait_for_completion rest

/-- Embeds ParallelQueryExecutor::execute_queries (src/aws/athena.rs lines
287-308). One task is spawned per query; exec gives the outcome each task
eventually produces (the semaphore only bounds how many run at once). The
collection loop awaits the task handles in input order and propagates the
first error in that order, so the returned value does not depend on
completion order. -/
def execute_queries (exec : String → Except String QueryResult) :
    List String → Except String (List QueryResult)
  | [] => .ok []
  | q :: qs =>
      match exec q with
      | .error e => .error e
      | .ok r =>
          match execute_queries exec qs with
          | .error e => .error e
          | .ok rs => .ok (r :: rs)

/-- Embeds extract_ddl_from_query_result (src/differ.rs lines 532-545): with
at least two rows, the first row is the header and the DDL is the first cell
of the second row; in every other case the result is None. -/
def extract_ddl_from_query_result (result : QueryResult) : Option String :=
  match result.rows with
  | _ :: data_row :: _ =>
      match data_row.columns with
      | [] => none
      | c :: _ => some c
  | _ => none

/-- Embeds the result-processing loop of Differ::get_remote_tables
(src/differ.rs lines 169-182): each SHOW CREATE TABLE result is paired with
its table; a table whose DDL extraction fails is skipped with only a warning
printed, the others are inserted under the key "database.table". -/
def process_remote_results (all_tables : List (String × String))
    (results : List QueryResult) : List (String × String) :=
  (all_tables.zip results).foldl
    (fun remote_tables x =>
      match extract_ddl_from_query_result x.2 with
      | some ddl => insertA remote_tables (x.1.1 ++ "." ++ x.1.2) ddl
      | none => remote_tables)
    []

/-! ## Polling-loop and executor theorems -/

/-- C3 counterexample: a status poll with a missing state does not continue
polling; wait_for_completion returns an error for it. -/
theorem c3_counterexample :
    wait_step none none
        = PollAction.finish (Except.error "Query execution state not available")
      ∧ wait_step none none ≠ PollAction.continuePolling := by
  refine ⟨rfl, fun h => ?_⟩
  simp [wait_step] at h

/-- C3 amended: a polled status with an unrecognized state, and one with state
Queued or Running, continues the loop; a missing state terminates the wait
with an error rather than continuing; Succeeded, Failed and Cancelled are the
only other terminal outcomes, and exhausting the poll budget is the timeout.
The loop continues exactly on Queued, Running and unrecognized states. -/
theorem c3_wait_states :
    (∀ (raw : String) (reason : Option String) rest,
      wait_for_completion
          ((some (QueryExecutionState.unknownState raw), reason) :: rest)
        = wait_for_completion rest) ∧
    (∀ (reason : Option String) rest,
      wait_for_completion ((some QueryExecutionState.queued, reason) :: rest)
        = wait_for_completion rest) ∧
    (∀ (reason : Option String) rest,
      wait_for_completion ((some QueryExecutionState.running, reason) :: rest)
        = wait_for_completion rest) ∧
    (∀ (reason : Option String) rest,
      wait_for_completion ((none, reason) :: rest)
        = Except.error "Query execution state not available") ∧
    (∀ reason : Option String,
      wait_step (some QueryExecutionState.succeeded) reason
        = PollAction.finish (Except.ok ())) ∧
    (∀ reason : Option String,
      wait_step (some QueryExecutionState.cancelled) reason
        = PollAction.finish (Except.error "Query execution was cancelled")) ∧
    (∀ reason : String,
      wait_step (some QueryExecutionState.failed) (some reason)
        = PollAction.finish
            (Except.error ("Query execution failed: " ++ reason))) ∧
    wait_for_completion [] = Except.error "Query execution timed out" ∧
    (∀ (state : Option QueryExecutionState) (reason : Option String),
      wait_step state reason = PollAction.continuePolling ↔
        state = some QueryExecutionState.queued ∨
        state = some QueryExecutionState.running ∨
        ∃ raw, state = some (QueryExecutionState.unknownState raw)) := by
  refine ⟨fun raw reason rest => rfl, fun reason rest => rfl,
    fun reason rest => rfl, fun reason rest => rfl, fun reason => rfl,
    fun reason => rfl, fun reason => rfl, rfl, fun state reason => ?_⟩
  cases state with
  | none => simp [wait_step]
  | some s => cases s <;> simp [wait_step]

/-- C4: when the bounded parallel executor returns successfully it returns
exactly one result per input query, and the result at each position is the
outcome of the query at the same input position, independent of completion
order. -/
theorem c4_execute_queries_order (exec : String → Except String QueryResult)
    (queries : List String) (results : List QueryResult)
    (h : execute_queries exec queries = .ok results) :
    results.length = queries.length ∧
      ∀ i (h1 : i < queries.length) (h2 : i < results.length),
        exec (queries.get ⟨i, h1⟩) = .ok (results.get ⟨i, h2⟩) := by
  induction queries generalizing results with
  | nil =>
      simp only [execute_queries, Except.ok.injEq] at h
      subst h
      exact ⟨rfl, fun i h1 h2 => absurd h1 (Nat.not_lt_zero i)⟩
  | cons q qs ih =>
      simp only [execute_queries] at h
      cases hq : exec q with
      | error e => rw [hq] at h; cases h
      | ok r =>
          rw [hq] at h
          cases hrec : execute_queries exec qs with
          | error e => rw [hrec] at h; cases h
          | ok rs =>
              rw [hrec] at h
              cases h
              obtain ⟨hlen, hidx⟩ := ih rs hrec
              refine ⟨by simpa using hlen, fun i h1 h2 => ?_⟩
              cases i with
              | zero => simpa using hq
              | succ j =>
                  simpa using hidx j (by simpa using h1) (by simpa using h2)

def c4ExecSample (q : String) : Except String QueryResult :=
  .ok ⟨q, .succeeded, none, []⟩

def c4Queries : List String := ["q1", "q2", "q3", "q4", "q5"]

def c4Results : List QueryResult :=
  [⟨"q1", .succeeded, none, []⟩, ⟨"q2", .succeeded, none, []⟩,
   ⟨"q3", .succeeded, none, []⟩, ⟨"q4", .succeeded, none, []⟩,
   ⟨"q5", .succeeded, none, []⟩]

/-- C4 witness: five queries yield five results, and the result at input
position two is the outcome of the query at input position two. -/
theorem c4_execute_queries_order_witness :
    c4Results.length = c4Queries.length ∧
      c4ExecSample (c4Queries.get ⟨2, by decide⟩)
        = Except.ok (c4Results.get ⟨2, by decide⟩) :=
  ⟨(c4_execute_queries_order c4ExecSample c4Queries c4Results rfl).1,
   (c4_execute_queries_order c4ExecSample c4Queries c4Results rfl).2
     2 (by decide) (by decide)⟩

/-! ## Remote table map construction lemmas -/

theorem keysA_insertA {α : Type} (k : String) (v : α) (k2 : String)
    (hne : k2 ≠ k) :
    ∀ m : List (String × α), k2 ∉ keysA m → k2 ∉ keysA (insertA m k v) := by
  intro m
  induction m with
  | nil => intro _ hx; exact hne (by simpa [insertA, keysA] using hx)
  | cons p rest ih =>
      obtain ⟨p1, p2⟩ := p
      intro hmem
      simp only [keysA, List.map_cons, List.mem_cons, not_or] at hmem
      by_cases hpk : p1 = k
      · subst hpk
        simp only [ne_eq, keysA, insertA, eq_self_iff_true, if_true, ite_true,
          List.map_cons, List.mem_cons, not_or]
        exact ⟨hne, hmem.2⟩
      · simp only [ne_eq, keysA, insertA, if_neg hpk, List.map_cons,
          List.mem_cons, not_or]
        exact ⟨hmem.1, ih hmem.2⟩

theorem insertA_of_not_mem {α : Type} (k : String) (v : α) :
    ∀ m : List (String × α), k ∉ keysA m → insertA m k v = m ++ [(k, v)] := by
  intro m
  induction m with
  | nil => intro _; rfl
  | cons p rest ih =>
      obtain ⟨p1, p2⟩ := p
      intro h
      simp only [keysA, List.map_cons, List.mem_cons, not_or] at h
      have hne : ¬ p1 = k := fun he => h.1 he.symm
      simp only [insertA, if_neg hne, List.cons_append, List.cons.injEq,
        true_and]
      exact ih h.2

/-- The per-table contribution of the remote result-processing loop: the
map entry produced for one (table, result) pair, when any. -/
def remoteEntryOf (x : (String × String) × QueryResult) :
    Option (String × String) :=
  match extract_ddl_from_query_result x.2 with
  | some ddl => some (x.1.1 ++ "." ++ x.1.2, ddl)
  | none => none

theorem process_remote_foldl
    (zs : List ((String × String) × QueryResult)) :
    ∀ acc : List (String × String),
      (∀ x ∈ zs, (x.1.1 ++ "." ++ x.1.2) ∉ keysA acc) →
      (zs.map fun x => x.1.1 ++ "." ++ x.1.2).Nodup →
      zs.foldl
          (fun remote_tables x =>
            match extract_ddl_from_query_result x.2 with
            | some ddl => insertA remote_tables (x.1.1 ++ "." ++ x.1.2) ddl
            | none => remote_tables) acc
        = acc ++ zs.filterMap remoteEntryOf := by
  induction zs with
  | nil => intro acc _ _; simp
  | cons z zs ih =>
      intro acc hks hnd
      simp only [List.map_cons, List.nodup_cons] at hnd
      simp only [List.foldl_cons, List.filterMap_cons]
      cases hz : extract_ddl_from_query_result z.2 with
      | none =>
          simp only [remoteEntryOf, hz]
          exact ih acc (fun x hx => hks x (List.mem_cons_of_mem z hx)) hnd.2
      | some ddl =>
          simp only [remoteEntryOf, hz]
          rw [insertA_of_not_mem _ _ acc (hks z (List.mem_cons_self z zs))]
          rw [ih (acc ++ [(z.1.1 ++ "." ++ z.1.2, ddl)]) ?_ hnd.2]
          · simp
          · intro x hx
            have h1 := hks x (List.mem_cons_of_mem z hx)
            have h2 : (x.1.1 ++ "." ++ x.1.2) ≠ (z.1.1 ++ "." ++ z.1.2) := by
              intro he
              refine hnd.1 ?_
              rw [← he]
              exact List.mem_map_of_mem _ hx
            simp only [keysA, List.map_append, List.map_cons, List.map_nil,
              List.mem_append, List.mem_cons, List.not_mem_nil, or_false,
              not_or]
            exact ⟨by simpa [keysA] using h1, h2⟩

theorem process_remote_avoid
    (zs : List ((String × String) × QueryResult)) (k : String) :
    ∀ acc : List (String × String),
      k ∉ keysA acc →
      (∀ x ∈ zs,
        x.1.1 ++ "." ++ x.1.2 = k → extract_ddl_from_query_result x.2 = none) →
      k ∉ keysA (zs.foldl
        (fun remote_tables x =>
          match extract_ddl_from_query_result x.2 with
          | some ddl => insertA remote_tables (x.1.1 ++ "." ++ x.1.2) ddl
          | none => remote_tables) acc) := by
  induction zs with
  | nil => intro acc hacc _; simpa using hacc
  | cons z zs ih =>
      intro acc hacc hnone
      simp only [List.foldl_cons]
      cases hz : extract_ddl_from_query_result z.2 with
      | none =>
          exact ih acc hacc fun x hx => hnone x (List.mem_cons_of_mem z hx)
      | some ddl =>
          refine ih _ ?_ fun x hx => hnone x (List.mem_cons_of_mem z hx)
          refine keysA_insertA _ ddl k ?_ acc hacc
          intro he
          have := hnone z (List.mem_cons_self z zs) he.symm
          rw [this] at hz
          cases hz

/-- C10: extract_ddl_from_query_result returns Some exactly when the query
result has at least two rows and the second row has a first cell, in which
case the DDL is that cell (the first row being the header); and during remote
enumeration the remote table map collects exactly the tables whose extraction
succeeded, so a table whose SHOW CREATE TABLE result yields None is omitted
from the map. -/
theorem c10_extract_ddl :
    (∀ (result : QueryResult) (ddl : String),
      extract_ddl_from_query_result result = some ddl ↔
        ∃ header data_row rest,
          result.rows = header :: data_row :: rest ∧
            ∃ ctail, data_row.columns = ddl :: ctail) ∧
    (∀ (all_tables : List (String × String)) (results : List QueryResult),
      ((all_tables.zip results).map fun x => x.1.1 ++ "." ++ x.1.2).Nodup →
      process_remote_results all_tables results
        = (all_tables.zip results).filterMap remoteEntryOf) ∧
    (∀ (all_tables : List (String × String)) (results : List QueryResult)
        (k : String),
      (∀ x ∈ all_tables.zip results,
        x.1.1 ++ "." ++ x.1.2 = k →
          extract_ddl_from_query_result x.2 = none) →
      k ∉ keysA (process_remote_results all_tables results)) := by
  refine ⟨fun result ddl => ?_, fun all_tables results hnd => ?_,
    fun all_tables results k hnone => ?_⟩
  · obtain ⟨eid, st, em, rows⟩ := result
    cases rows with
    | nil => simp [extract_ddl_from_query_result]
    | cons r0 rows1 =>
        cases rows1 with
        | nil => simp [extract_ddl_from_query_result]
        | cons r1 rows2 =>
            obtain ⟨cols⟩ := r1
            cases cols with
            | nil => simp [extract_ddl_from_query_result]
            | cons c ctl =>
                simp [extract_ddl_from_query_result]
                constructor
                · intro h
                  exact ⟨r0, ⟨c :: ctl⟩, ⟨rfl, rfl⟩, ctl, by rw [h]⟩
                · rintro ⟨header, data_row, ⟨h1, h2⟩, ctail, hcols⟩
                  cases h2
                  simp at hcols
                  exact hcols.1
  · unfold process_remote_results
    rw [process_remote_foldl _ [] (by simp [keysA]) hnd]
    simp
  · unfold process_remote_results
    exact process_remote_avoid _ k [] (by simp [keysA]) hnone

def c10GoodResult : QueryResult :=
  ⟨"e1", .succeeded, none,
    [⟨["createtab_stmt"]⟩, ⟨["CREATE TABLE t1 (id int)"]⟩]⟩

def c10BadResult : QueryResult :=
  ⟨"e2", .succeeded, none, [⟨["createtab_stmt"]⟩]⟩

/-- C10 witness: with one well-formed and one header-only result, the remote
map is exactly the filter-mapped entries and the failed table's key is
absent. -/
theorem c10_extract_ddl_witness :
    process_remote_results [("db", "t1"), ("db", "t2")]
        [c10GoodResult, c10BadResult]
      = ([("db", "t1"), ("db", "t2")].zip
          [c10GoodResult, c10BadResult]).filterMap remoteEntryOf ∧
    "db.t2" ∉ keysA (process_remote_results [("db", "t1"), ("db", "t2")]
      [c10GoodResult, c10BadResult]) :=
  ⟨c10_extract_ddl.2.1 _ _ (by decide),
   c10_extract_ddl.2.2 _ _ "db.t2" (by decide)⟩

/-! ## DDL normalization (src/differ.rs lines 560-567)

The Rust function is sql.lines().map(trim_end).join newline, then trim_end
of the whole. The std lines iterator splits on newline characters, strips a
carriage return left at the end of a piece by a CRLF ending, and drops the
final piece when it is empty (a trailing line terminator produces no extra
line). -/

/-- Removes a single trailing carriage return, the CRLF handling of
str::lines. -/
def stripTrailingCR (l : List Char) : List Char :=
  if l.reverse.head? = some '\r' then l.reverse.tail.reverse else l

/-- Embeds the line-splitting of str::lines on the newline-separated pieces:
every piece except the last was terminated by a newline and has a trailing
carriage return stripped; a trailing empty piece is dropped. -/
def rust_lines_aux : List (List Char) → List (List Char)
  | [] => []
  | [p] => if p.isEmpty then [] else [p]
  | p :: q :: t => stripTrailingCR p :: rust_lines_aux (q :: t)

/-- Embeds str::lines. -/
def rust_lines (l : List Char) : List (List Char) :=
  rust_lines_aux (splitOnChar '\n' l)

/-- Embeds the join with a newline separator. -/
def joinNL : List (List Char) → List Char
  | [] => []
  | [p] => p
  | p :: q :: t => p ++ '\n' :: joinNL (q :: t)

/-- Embeds normalize_sql at the character level: split into lines, trim each
line's trailing whitespace, join with newlines, trim the result's trailing
whitespace. -/
def normalize_sql_chars (sql : List Char) : List Char :=
  charTrimEnd (joinNL ((rust_lines sql).map charTrimEnd))

/-- Embeds normalize_sql (src/differ.rs lines 560-567). -/
def normalize_sql (sql : String) : String :=
  String.mk (normalize_sql_chars sql.data)

/-- The lines of the normalized text with the trailing run of empty lines
removed; used to characterize the fixed points of normalization. -/
def dropTrailingEmpties (ls : List (List Char)) : List (List Char) :=
  (ls.reverse.dropWhile List.isEmpty).reverse

/-! ### List utilities for the normalization proof -/

theorem dropWhile_twice {α : Type} (p : α → Bool) (l : List α) :
    (l.dropWhile p).dropWhile p = l.dropWhile p := by
  induction l with
  | nil => rfl
  | cons a t ih =>
      by_cases h : p a
      · simp [List.dropWhile_cons, h, ih]
      · simp [List.dropWhile_cons, h]

theorem head_dropWhile_false {α : Type} (p : α → Bool) (l : List α) {a : α}
    (h : (l.dropWhile p).head? = some a) : p a = false := by
  induction l with
  | nil => cases h
  | cons b t ih =>
      by_cases hb : p b
      · exact ih (by simpa [List.dropWhile_cons, hb] using h)
      · simp only [List.dropWhile_cons, if_neg hb, List.head?_cons,
          Option.some.injEq] at h
        subst h
        exact Bool.eq_false_iff.mpr hb

theorem mem_dropWhile {α : Type} (p : α → Bool) (l : List α) {a : α}
    (h : a ∈ l.dropWhile p) : a ∈ l := by
  induction l with
  | nil => cases h
  | cons b t ih =>
      by_cases hb : p b
      · exact List.mem_cons_of_mem b (ih (by simpa [List.dropWhile_cons, hb] using h))
      · simpa [List.dropWhile_cons, hb] using h

theorem charTrimEnd_idem (l : List Char) :
    charTrimEnd (charTrimEnd l) = charTrimEnd l := by
  unfold charTrimEnd
  rw [List.reverse_reverse, dropWhile_twice]

theorem mem_charTrimEnd {l : List Char} {a : Char} (h : a ∈ charTrimEnd l) :
    a ∈ l := by
  unfold charTrimEnd at h
  rw [List.mem_reverse] at h
  exact List.mem_reverse.mp (mem_dropWhile _ _ h)

theorem mem_stripTrailingCR {l : List Char} {a : Char}
    (h : a ∈ stripTrailingCR l) : a ∈ l := by
  unfold stripTrailingCR at h
  split at h
  · rw [List.mem_reverse] at h
    exact List.mem_reverse.mp (List.mem_of_mem_tail h)
  · exact h

theorem charTrimEnd_append_ws (x : List Char) {c : Char}
    (hc : Char.isWhitespace c = true) :
    charTrimEnd (x ++ [c]) = charTrimEnd x := by
  unfold charTrimEnd
  rw [List.reverse_append, List.reverse_cons, List.reverse_nil,
    List.nil_append, List.singleton_append, List.dropWhile_cons, if_pos hc]

theorem charTrimEnd_eq_self_of_last {l : List Char} {c : Char}
    {rest : List Char} (hrev : l.reverse = c :: rest)
    (hc : Char.isWhitespace c = false) : charTrimEnd l = l := by
  unfold charTrimEnd
  rw [hrev, List.dropWhile_cons, if_neg (by simp [hc]), ← hrev,
    List.reverse_reverse]

theorem length_dropWhile_le {α : Type} (p : α → Bool) (l : List α) :
    (l.dropWhile p).length ≤ l.length := by
  induction l with
  | nil => simp
  | cons a t ih =>
      by_cases h : p a
      · rw [List.dropWhile_cons, if_pos h]
        exact Nat.le_succ_of_le ih
      · rw [List.dropWhile_cons, if_neg h]

theorem charTrimEnd_dropWhile {l : List Char} (ht : charTrimEnd l = l) :
    l.reverse.dropWhile Char.isWhitespace = l.reverse := by
  have h1 := congrArg List.reverse ht
  unfold charTrimEnd at h1
  rw [List.reverse_reverse] at h1
  exact h1

theorem charTrimEnd_last_not_ws {l : List Char} (ht : charTrimEnd l = l)
    {c : Char} {rest : List Char} (hrev : l.reverse = c :: rest) :
    Char.isWhitespace c = false := by
  have h1 := charTrimEnd_dropWhile ht
  rw [hrev] at h1
  by_cases hc : Char.isWhitespace c
  · exfalso
    rw [List.dropWhile_cons, if_pos hc] at h1
    have h2 := congrArg List.length h1
    have h3 := length_dropWhile_le Char.isWhitespace rest
    simp only [List.length_cons] at h2
    omega
  · exact Bool.eq_false_iff.mpr hc

theorem stripTrailingCR_of_trimmed {l : List Char} (ht : charTrimEnd l = l) :
    stripTrailingCR l = l := by
  unfold stripTrailingCR
  rw [if_neg]
  intro hhd
  cases hrev : l.reverse with
  | nil => rw [hrev] at hhd; cases hhd
  | cons c rest =>
      rw [hrev] at hhd
      simp only [List.head?_cons, Option.some.injEq] at hhd
      have := charTrimEnd_last_not_ws ht hrev
      rw [hhd] at this
      cases this

theorem splitOnCharAux_no_sep (sep : Char) :
    ∀ (l acc : List Char), sep ∉ acc →
      ∀ p ∈ splitOnCharAux sep l acc, sep ∉ p := by
  intro l
  induction l with
  | nil =>
      intro acc hacc p hp
      simp only [splitOnCharAux, List.mem_singleton] at hp
      subst hp
      simpa [List.mem_reverse] using hacc
  | cons c rest ih =>
      intro acc hacc p hp
      by_cases hc : c = sep
      · simp only [splitOnCharAux, if_pos hc] at hp
        rcases List.mem_cons.mp hp with h | h
        · subst h; simpa [List.mem_reverse] using hacc
        · exact ih [] (by simp) p h
      · simp only [splitOnCharAux, if_neg hc] at hp
        refine ih (c :: acc) ?_ p hp
        intro hx
        rcases List.mem_cons.mp hx with h | h
        · exact hc h.symm
        · exact hacc h

theorem splitOnCharAux_no_sep_eq (sep : Char) :
    ∀ (p acc : List Char), sep ∉ p →
      splitOnCharAux sep p acc = [acc.reverse ++ p] := by
  intro p
  induction p with
  | nil => intro acc _; simp [splitOnCharAux]
  | cons c cs ih =>
      intro acc hp
      have hc : ¬ c = sep := fun h => hp (h ▸ List.mem_cons_self c cs)
      simp only [splitOnCharAux, if_neg hc]
      rw [ih (c :: acc) (fun hx => hp (List.mem_cons_of_mem c hx))]
      simp

theorem splitOnCharAux_sep_split (sep : Char) :
    ∀ (p acc rest : List Char), sep ∉ p →
      splitOnCharAux sep (p ++ sep :: rest) acc
        = (acc.reverse ++ p) :: splitOnCharAux sep rest [] := by
  intro p
  induction p with
  | nil =>
      intro acc rest _
      simp [splitOnCharAux]
  | cons c cs ih =>
      intro acc rest hp
      have hc : ¬ c = sep := fun h => hp (h ▸ List.mem_cons_self c cs)
      simp only [List.cons_append, splitOnCharAux, if_neg hc, List.append_eq]
      rw [ih (c :: acc) rest (fun hx => hp (List.mem_cons_of_mem c hx))]
      simp

theorem joinNL_cons_of_ne_nil (a : List Char) {t : List (List Char)}
    (h : t ≠ []) : joinNL (a :: t) = a ++ '\n' :: joinNL t := by
  cases t with
  | nil => exact absurd rfl h
  | cons b t2 => rfl

theorem joinNL_append_singleton :
    ∀ {ls : List (List Char)}, ls ≠ [] → ∀ p : List Char,
      joinNL (ls ++ [p]) = joinNL ls ++ '\n' :: p := by
  intro ls
  induction ls with
  | nil => intro h; exact absurd rfl h
  | cons a t ih =>
      intro _ p
      cases t with
      | nil => rfl
      | cons b t2 =>
          rw [List.cons_append, joinNL_cons_of_ne_nil a (t := (b :: t2) ++ [p])
            (by simp), joinNL_cons_of_ne_nil a (t := b :: t2) (by simp),
            ih (by simp) p]
          simp

theorem splitOnChar_joinNL :
    ∀ ls : List (List Char), ls ≠ [] → (∀ p ∈ ls, '\n' ∉ p) →
      splitOnChar '\n' (joinNL ls) = ls := by
  intro ls
  induction ls with
  | nil => intro h; exact absurd rfl h
  | cons p ps ih =>
      intro _ hnl
      cases ps with
      | nil =>
          show splitOnCharAux '\n' (joinNL [p]) [] = [p]
          rw [show joinNL [p] = p from rfl,
            splitOnCharAux_no_sep_eq '\n' p [] (hnl p (List.mem_cons_self _ _))]
          simp
      | cons q t =>
          rw [joinNL_cons_of_ne_nil p (by simp)]
          show splitOnCharAux '\n' (p ++ '\n' :: joinNL (q :: t)) [] = p :: q :: t
          rw [splitOnCharAux_sep_split '\n' p [] _
            (hnl p (List.mem_cons_self _ _))]
          simp only [List.reverse_nil, List.nil_append]
          congr 1
          exact ih (by simp) (fun x hx => hnl x (List.mem_cons_of_mem p hx))

theorem rust_lines_aux_id :
    ∀ ls : List (List Char), (∀ p ∈ ls, stripTrailingCR p = p) →
      (∀ p, ls.getLast? = some p → p ≠ []) → rust_lines_aux ls = ls := by
  intro ls
  induction ls with
  | nil => intro _ _; rfl
  | cons p ps ih =>
      intro hstrip hlast
      cases ps with
      | nil =>
          have hp : p ≠ [] := hlast p rfl
          simp only [rust_lines_aux]
          rw [if_neg (by simpa using hp)]
      | cons q t =>
          simp only [rust_lines_aux]
          rw [hstrip p (List.mem_cons_self _ _)]
          congr 1
          refine ih (fun x hx => hstrip x (List.mem_cons_of_mem p hx)) ?_
          intro x hx
          refine hlast x ?_
          rw [List.getLast?_cons_cons]
          exact hx

theorem rust_lines_aux_no_sep :
    ∀ ps : List (List Char), (∀ p ∈ ps, '\n' ∉ p) →
      ∀ q ∈ rust_lines_aux ps, '\n' ∉ q := by
  intro ps
  induction ps with
  | nil => intro _ q hq; cases hq
  | cons p t ih =>
      intro h q hq
      cases t with
      | nil =>
          simp only [rust_lines_aux] at hq
          split at hq
          · cases hq
          · rw [List.mem_singleton] at hq
            subst hq
            exact h q (List.mem_cons_self _ _)
      | cons r t2 =>
          simp only [rust_lines_aux] at hq
          rcases List.mem_cons.mp hq with hq1 | hq2
          · subst hq1
            intro hx
            exact h p (List.mem_cons_self _ _) (mem_stripTrailingCR hx)
          · exact ih (fun x hx => h x (List.mem_cons_of_mem p hx)) q hq2

theorem rust_lines_no_sep (l : List Char) :
    ∀ q ∈ rust_lines l, '\n' ∉ q :=
  rust_lines_aux_no_sep _ (splitOnCharAux_no_sep '\n' l [] (by simp))

theorem charTrimEnd_eq_self_append {y p : List Char} {c : Char}
    {rest : List Char} (hrev : p.reverse = c :: rest)
    (hc : Char.isWhitespace c = false) :
    charTrimEnd (y ++ p) = y ++ p := by
  have h2 : (y ++ p).reverse = c :: (rest ++ y.reverse) := by
    rw [List.reverse_append, hrev]
    rfl
  exact charTrimEnd_eq_self_of_last h2 hc

theorem charTrimEnd_joinNL :
    ∀ ls : List (List Char), (∀ p ∈ ls, charTrimEnd p = p) →
      charTrimEnd (joinNL ls) = joinNL (dropTrailingEmpties ls) := by
  intro ls
  induction ls using List.reverseRecOn with
  | nil => intro _; rfl
  | append_singleton ls p ih =>
      intro htrim
      by_cases hp : p = []
      · subst hp
        have hd : dropTrailingEmpties (ls ++ [[]]) = dropTrailingEmpties ls := by
          unfold dropTrailingEmpties
          rw [List.reverse_append]
          rfl
        rw [hd]
        cases hls : ls with
        | nil => rfl
        | cons a t =>
            rw [← hls, joinNL_append_singleton (by rw [hls]; simp) [],
              show ('\n' : Char) :: [] = ['\n'] from rfl,
              charTrimEnd_append_ws _ (by decide)]
            exact ih fun x hx => htrim x (List.mem_append_left _ hx)
      · have htp : charTrimEnd p = p :=
          htrim p (List.mem_append_right _ (List.mem_singleton.mpr rfl))
        cases hrev : p.reverse with
        | nil =>
            exact absurd (by simpa using congrArg List.reverse hrev) hp
        | cons c rest =>
            have hcw : Char.isWhitespace c = false :=
              charTrimEnd_last_not_ws htp hrev
            have hd : dropTrailingEmpties (ls ++ [p]) = ls ++ [p] := by
              unfold dropTrailingEmpties
              rw [List.reverse_append,
                show [p].reverse ++ ls.reverse = p :: ls.reverse from rfl,
                List.dropWhile_cons,
                if_neg (by simpa [List.isEmpty_iff] using hp)]
              simp
            rw [hd]
            cases hls : ls with
            | nil =>
                show charTrimEnd (joinNL [p]) = joinNL [p]
                rw [show joinNL [p] = p from rfl]
                exact htp
            | cons a t =>
                rw [← hls, joinNL_append_singleton (by rw [hls]; simp) p,
                  show joinNL ls ++ '\n' :: p = (joinNL ls ++ ['\n']) ++ p
                    from by simp]
                exact charTrimEnd_eq_self_append hrev hcw

theorem dropTrailingEmpties_mem {ls : List (List Char)} {p : List Char}
    (hp : p ∈ dropTrailingEmpties ls) : p ∈ ls := by
  unfold dropTrailingEmpties at hp
  rw [List.mem_reverse] at hp
  exact List.mem_reverse.mp (mem_dropWhile _ _ hp)

theorem dropTrailingEmpties_getLast {ls : List (List Char)} {p : List Char}
    (hp : (dropTrailingEmpties ls).getLast? = some p) : p ≠ [] := by
  unfold dropTrailingEmpties at hp
  rw [List.getLast?_reverse] at hp
  have := head_dropWhile_false List.isEmpty ls.reverse hp
  simpa using this

theorem dropTrailingEmpties_idem (ls : List (List Char)) :
    dropTrailingEmpties (dropTrailingEmpties ls) = dropTrailingEmpties ls := by
  unfold dropTrailingEmpties
  rw [List.reverse_reverse, dropWhile_twice]

theorem normalize_sql_chars_idem (l : List Char) :
    normalize_sql_chars (normalize_sql_chars l) = normalize_sql_chars l := by
  have htrim : ∀ p ∈ (rust_lines l).map charTrimEnd, charTrimEnd p = p := by
    intro p hp
    rcases List.mem_map.mp hp with ⟨q, _, rfl⟩
    exact charTrimEnd_idem q
  have hnl : ∀ p ∈ (rust_lines l).map charTrimEnd, '\n' ∉ p := by
    intro p hp hmem
    rcases List.mem_map.mp hp with ⟨q, hq, rfl⟩
    exact rust_lines_no_sep l q hq (mem_charTrimEnd hmem)
  have h1 : normalize_sql_chars l
      = joinNL (dropTrailingEmpties ((rust_lines l).map charTrimEnd)) :=
    charTrimEnd_joinNL _ htrim
  set ls2 := dropTrailingEmpties ((rust_lines l).map charTrimEnd) with hls2
  have htrim2 : ∀ p ∈ ls2, charTrimEnd p = p :=
    fun p hp => htrim p (dropTrailingEmpties_mem hp)
  have hnl2 : ∀ p ∈ ls2, '\n' ∉ p :=
    fun p hp => hnl p (dropTrailingEmpties_mem hp)
  rw [h1]
  cases hne : ls2 with
  | nil => rfl
  | cons a t =>
      rw [← hne]
      have hlines : rust_lines (joinNL ls2) = ls2 := by
        unfold rust_lines
        rw [show splitOnChar '\n' (joinNL ls2)
            = splitOnCharAux '\n' (joinNL ls2) [] from rfl]
        rw [show splitOnCharAux '\n' (joinNL ls2) []
            = splitOnChar '\n' (joinNL ls2) from rfl]
        rw [splitOnChar_joinNL ls2 (by rw [hne]; simp) hnl2]
        exact rust_lines_aux_id ls2
          (fun p hp => stripTrailingCR_of_trimmed (htrim2 p hp))
          (fun p hp => dropTrailingEmpties_getLast (hls2 ▸ hp))
      have hmap : ls2.map charTrimEnd = ls2 := by
        have := List.map_congr_left (f := charTrimEnd) (g := id) htrim2
        simpa using this
      unfold normalize_sql_chars
      rw [hlines, hmap, charTrimEnd_joinNL ls2 htrim2, hls2,
        dropTrailingEmpties_idem]

/-- C8: DDL normalization is idempotent: normalizing an already normalized
text changes nothing, where normalization trims each line's trailing
whitespace, unifies line endings to a newline, and trims trailing blank
lines. -/
theorem c8_normalize_idempotent (s : String) :
    normalize_sql (normalize_sql s) = normalize_sql s :=
  congrArg String.mk (normalize_sql_chars_idem s.data)

/-! ## Heuristic column extraction (src/differ.rs lines 285-447) -/

/-- Embeds the loop of split_column_definitions (src/differ.rs lines
350-380): split on commas at bracket depth zero, tracking depth across
parentheses and angle brackets, pushing each trimmed non-empty fragment. -/
def split_column_defs_go :
    List Char → Int → List Char → List (List Char) → List (List Char)
  | [], _, current, result =>
      if (charTrim current).isEmpty then result else result ++ [charTrim current]
  | ch :: rest, depth, current, result =>
      if ch = '<' ∨ ch = '(' then
        split_column_defs_go rest (depth + 1) (current ++ [ch]) result
      else if ch = '>' ∨ ch = ')' then
        split_column_defs_go rest (depth - 1) (current ++ [ch]) result
      else if ch = ',' ∧ depth = 0 then
        if (charTrim current).isEmpty then
          split_column_defs_go rest depth [] result
        else split_column_defs_go rest depth [] (result ++ [charTrim current])
      else split_column_defs_go rest depth (current ++ [ch]) result

/-- Embeds split_column_definitions. -/
def split_column_definitions (input : String) : List String :=
  (split_column_defs_go input.data 0 [] []).map String.mk

/-- Embeds parse_column_definition (src/differ.rs lines 383-400): split the
trimmed fragment at its first whitespace character into a column name and a
type remainder, both re-trimmed and required non-empty. -/
def parse_column_definition (input : List Char) :
    Option (List Char × List Char) :=
  let trimmed := charTrim input
  if trimmed.isEmpty then none
  else
    match trimmed.findIdx? Char.isWhitespace with
    | none => none
    | some i =>
        let name := charTrim (trimmed.take i)
        let typ := charTrim (trimmed.drop (i + 1))
        if !name.isEmpty && !typ.isEmpty then some (name, typ) else none

/-- Embeds the parse-and-insert step of extract_columns (src/differ.rs lines
326-331 and 337-343): each parsed (name, type) pair is inserted lower-cased. -/
def insert_column_defs (accumulated : List Char)
    (columns : List (String × String)) : List (String × String) :=
  (split_column_defs_go accumulated 0 [] []).foldl
    (fun cols col_def =>
      match parse_column_definition col_def with
      | some (name, typ) =>
          insertA cols (String.mk (charToLower name))
            (String.mk (charToLower typ))
      | none => cols)
    columns

/-- Embeds the end-of-columns test of the extract_columns scan
(src/differ.rs lines 309-315). -/
def is_columns_terminator (trimmed : List Char) : Bool :=
  startsWithChars [')'] trimmed
    || startsWithChars "stored".data (charToLower trimmed)
    || startsWithChars "partitioned".data (charToLower trimmed)
    || startsWithChars "location".data (charToLower trimmed)
    || startsWithChars "row format".data (charToLower trimmed)

/-- Embeds the line scan of extract_columns (src/differ.rs lines 285-347):
before the first opening parenthesis lines are skipped; after it, lines are
accumulated and flushed on a comma or a trailing closing parenthesis; a
terminator line stops the scan, and the remaining accumulated text is parsed
after the loop. -/
def extract_columns_go :
    List (List Char) → Bool → List Char → List (String × String) →
      List (String × String)
  | [], _, accumulated, columns =>
      if accumulated.isEmpty then columns
      else insert_column_defs accumulated columns
  | line :: rest, in_columns_section, accumulated, columns =>
      let trimmed := charTrim line
      if in_columns_section = false then
        match trimmed.findIdx? (fun ch => ch = '(') with
        | some pos => extract_columns_go rest true (trimmed.drop (pos + 1)) columns
        | none => extract_columns_go rest false accumulated columns
      else
        if is_columns_terminator trimmed then
          if accumulated.isEmpty then columns
          else insert_column_defs accumulated columns
        else
          let accumulated2 :=
            if accumulated.isEmpty then trimmed
            else accumulated ++ ' ' :: trimmed
          if containsChar accumulated2 ',' || endsWithChar trimmed ')' then
            extract_columns_go rest true [] (insert_column_defs accumulated2 columns)
          else extract_columns_go rest true accumulated2 columns

/-- Embeds extract_columns (src/differ.rs lines 285-347): the name-to-type
map of the column list found in the DDL text. -/
def extract_columns (sql : String) : List (String × String) :=
  extract_columns_go (rust_lines sql.data) false [] []

/-- Embeds detect_column_changes (src/differ.rs lines 403-447): names only in
the remote map are Removed, names only in the local map are Added, names in
both with different type strings are TypeChanged. -/
def detect_column_changes
    (remote_columns local_columns : List (String × String)) :
    List ColumnChange :=
  (remote_columns.filterMap fun pc =>
    if (lookupA local_columns pc.1).isSome then none
    else some ⟨ColumnChangeType.removed, pc.1, some pc.2, none⟩)
  ++ (local_columns.filterMap fun pc =>
    match lookupA remote_columns pc.1 with
    | none => some ⟨ColumnChangeType.added, pc.1, none, some pc.2⟩
    | some old_type =>
        if old_type ≠ pc.2 then
          some ⟨ColumnChangeType.typeChanged, pc.1, some old_type, some pc.2⟩
        else none)

/-! ## Property extraction (src/differ.rs lines 450-523)

The three extractors are regular-expression scans in the source; they are
embedded as leftmost-match scans with the same atom semantics (the word class
and case folding restricted to ASCII, which covers the identifiers and
keywords the DDL dialect allows). -/

def quoteChar : Char := Char.ofNat 39

/-- Matches a case-insensitive literal (given lower-cased) at the current
position and returns the remainder. -/
def stripCaseInsensitive : List Char → List Char → Option (List Char)
  | [], l => some l
  | _ :: _, [] => none
  | p :: ps, c :: cs =>
      if Char.toLower c = p then stripCaseInsensitive ps cs else none

/-- Matches one-or-more whitespace characters greedily. -/
def stripWs1 (l : List Char) : Option (List Char) :=
  match l with
  | c :: cs =>
      if c.isWhitespace then some (cs.dropWhile Char.isWhitespace) else none
  | [] => none

/-- Matches zero-or-more whitespace characters greedily. -/
def stripWs0 (l : List Char) : List Char := l.dropWhile Char.isWhitespace

def isWordChar (c : Char) : Bool :=
  ('a' ≤ c ∧ c ≤ 'z') ∨ ('A' ≤ c ∧ c ≤ 'Z') ∨ ('0' ≤ c ∧ c ≤ '9') ∨ c = '_'

/-- The regex LOCATION, whitespace, then a single-quoted non-empty capture,
matched at the current position. -/
def matchLocationAt (l : List Char) : Option (List Char) := do
  let r1 ← stripCaseInsensitive "location".data l
  let r2 ← stripWs1 r1
  match r2 with
  | c :: r3 =>
      if c = quoteChar then
        let body := r3.takeWhile fun d => d ≠ quoteChar
        let rest := r3.dropWhile fun d => d ≠ quoteChar
        if body.isEmpty then none
        else
          match rest with
          | d :: _ => if d = quoteChar then some body else none
          | [] => none
      else none
  | [] => none

/-- The regex STORED, whitespace, AS, whitespace, then a non-empty word
capture, matched at the current position. -/
def matchStoredAsAt (l : List Char) : Option (List Char) := do
  let r1 ← stripCaseInsensitive "stored".data l
  let r2 ← stripWs1 r1
  let r3 ← stripCaseInsensitive "as".data r2
  let r4 ← stripWs1 r3
  let word := r4.takeWhile isWordChar
  if word.isEmpty then none else some word

/-- The regex PARTITIONED, whitespace, BY, optional whitespace, then a
parenthesized non-empty capture, matched at the current position. -/
def matchPartitionedByAt (l : List Char) : Option (List Char) := do
  let r1 ← stripCaseInsensitive "partitioned".data l
  let r2 ← stripWs1 r1
  let r3 ← stripCaseInsensitive "by".data r2
  match stripWs0 r3 with
  | '(' :: r5 =>
      let body := r5.takeWhile fun d => d ≠ ')'
      let rest := r5.dropWhile fun d => d ≠ ')'
      if body.isEmpty then none
      else
        match rest with
        | ')' :: _ => some body
        | _ => none
  | _ => none

/-- Leftmost-match scan: the regex engine reports the match starting at the
earliest position. -/
def scanFirst {α : Type} (f : List Char → Option α) : List Char → Option α
  | [] => f []
  | c :: cs =>
      match f (c :: cs) with
      | some x => some x
      | none => scanFirst f cs

/-- Embeds extract_location (src/differ.rs lines 506-509). -/
def extract_location (sql : String) : Option String :=
  (scanFirst matchLocationAt sql.data).map String.mk

def charToUpper (l : List Char) : List Char := l.map Char.toUpper

/-- Embeds extract_stored_as (src/differ.rs lines 512-515): the captured
format word, upper-cased. -/
def extract_stored_as (sql : String) : Option String :=
  (scanFirst matchStoredAsAt sql.data).map fun w => String.mk (charToUpper w)

/-- Embeds extract_partitioned_by (src/differ.rs lines 518-523): the captured
partition list, trimmed. -/
def extract_partitioned_by (sql : String) : Option String :=
  (scanFirst matchPartitionedByAt sql.data).map fun b => String.mk (charTrim b)

/-- Embeds detect_property_changes (src/differ.rs lines 450-503). -/
def detect_property_changes (remote_sql local_sql : String) :
    List PropertyChange :=
  (match extract_location remote_sql, extract_location local_sql with
    | some remote_loc, some local_loc =>
        if remote_loc ≠ local_loc then
          [⟨"location", some remote_loc, some local_loc⟩]
        else []
    | _, _ =>
        if (extract_location remote_sql).isSome
            ≠ (extract_location local_sql).isSome then
          [⟨"location", extract_location remote_sql,
            extract_location local_sql⟩]
        else [])
  ++ (match extract_stored_as remote_sql, extract_stored_as local_sql with
    | some remote_fmt, some local_fmt =>
        if remote_fmt ≠ local_fmt then
          [⟨"format", some remote_fmt, some local_fmt⟩]
        else []
    | _, _ =>
        if (extract_stored_as remote_sql).isSome
            ≠ (extract_stored_as local_sql).isSome then
          [⟨"format", extract_stored_as remote_sql,
            extract_stored_as local_sql⟩]
        else [])
  ++ (if extract_partitioned_by remote_sql ≠ extract_partitioned_by local_sql
      then
        [⟨"partitions", extract_partitioned_by remote_sql,
          extract_partitioned_by local_sql⟩]
      else [])

/-- Embeds detect_changes (src/differ.rs lines 269-280). -/
def detect_changes (remote_sql local_sql : String) : ChangeDetails :=
  { column_changes :=
      detect_column_changes (extract_columns remote_sql)
        (extract_columns local_sql)
    property_changes := detect_property_changes remote_sql local_sql }

def c6RemoteDdl : String :=
  "CREATE EXTERNAL TABLE customers (\n  id int\n)\nSTORED AS PARQUET"

def c6LocalDdl : String :=
  "CREATE EXTERNAL TABLE customers (\n  id bigint,\n  email string\n)\nSTORED AS PARQUET"

/-- C6: for a table present on both sides whose remote DDL declares the
column id of type int and whose local DDL declares id of type bigint and
email of type string, the computed change details contain exactly one
TypeChanged entry for id from int to bigint, exactly one Added entry for
email of type string, and no other column changes. -/
theorem c6_column_changes :
    (detect_changes c6RemoteDdl c6LocalDdl).column_changes
        = [⟨ColumnChangeType.typeChanged, "id", some "int", some "bigint"⟩,
           ⟨ColumnChangeType.added, "email", none, some "string"⟩] ∧
    (detect_changes c6RemoteDdl c6LocalDdl).column_changes.count
        ⟨ColumnChangeType.typeChanged, "id", some "int", some "bigint"⟩ = 1 ∧
    (detect_changes c6RemoteDdl c6LocalDdl).column_changes.count
        ⟨ColumnChangeType.added, "email", none, some "string"⟩ = 1 ∧
    (detect_changes c6RemoteDdl c6LocalDdl).column_changes.length = 2 := by
  refine ⟨?_, ?_, ?_, ?_⟩ <;> decide

/-! ## Table diff computation (src/differ.rs lines 195-254) -/

/-- Embeds file_utils::SqlFile. -/
structure SqlFile where
  database_name : String
  table_name : String
  file_path : String
  content : String
deriving DecidableEq

/-- Embeds parse_table_key (src/differ.rs lines 606-612): split on dots and
require exactly two segments. -/
def parse_table_key (key : String) : Except String (String × String) :=
  let parts := splitOnChar '.' key.data
  if h : parts.length = 2 then
    .ok (String.mk (parts.get ⟨0, by omega⟩), String.mk (parts.get ⟨1, by omega⟩))
  else .error ("Invalid table key format: " ++ key)

/-- Modelled from the spec: the unified-diff hunk text comes from the
external similar crate, which is not part of this repository; the hunks are
left unmodelled (no claim depends on their text). -/
def format_sql_diff_hunks (_remote _local_sql : String) : String := ""

/-- Embeds format_sql_diff (src/differ.rs lines 578-597) up to the hunk text
of the external similar crate: the two header lines followed by the hunks. -/
def format_sql_diff (table_name remote local_sql : String) : String :=
  "--- remote: " ++ table_name ++ "\n" ++ "+++ local:  " ++ table_name
    ++ "\n" ++ format_sql_diff_hunks remote local_sql

/-- The Delete entry built from a remote-only key; the fallback value is
irrelevant because compute_table_diffs fails on keys that do not parse. -/
def delete_diff_of (key : String) : TableDiff :=
  match parse_table_key key with
  | .ok (db, table) =>
      { database_name := db, table_name := table,
        operation := DiffOperation.delete, text_diff := none,
        change_details := none }
  | .error _ =>
      { database_name := "", table_name := "",
        operation := DiffOperation.delete, text_diff := none,
        change_details := none }

/-- Embeds the delete loop of compute_table_diffs (src/differ.rs lines
216-227): every remote-only key is parsed (propagating a parse failure) and
pushed as a Delete entry. -/
def delete_diffs (local_tables : List (String × SqlFile)) :
    List (String × String) → Except String (List TableDiff)
  | [] => .ok []
  | p :: rest =>
      if containsKeyA local_tables p.1 then delete_diffs local_tables rest
      else
        match parse_table_key p.1 with
        | .error e => .error e
        | .ok (db, table) =>
            match delete_diffs local_tables rest with
            | .error e => .error e
            | .ok tail =>
                .ok ({ database_name := db, table_name := table,
                       operation := DiffOperation.delete, text_diff := none,
                       change_details := none } :: tail)

/-- Embeds Differ::compute_table_diffs (src/differ.rs lines 195-254): Create
entries for local-only keys, Delete entries for remote-only keys, Update
entries for keys on both sides whose normalized DDL texts differ, in that
order. -/
def compute_table_diffs (local_tables : List (String × SqlFile))
    (remote_tables : List (String × String)) :
    Except String (List TableDiff) :=
  let creates :=
    (local_tables.filter fun p => !(containsKeyA remote_tables p.1)).map
      fun p =>
        { database_name := p.2.database_name, table_name := p.2.table_name,
          operation := DiffOperation.create, text_diff := none,
          change_details := none }
  match delete_diffs local_tables remote_tables with
  | .error e => .error e
  | .ok deletes =>
      let updates := local_tables.filterMap fun p =>
        match lookupA remote_tables p.1 with
        | none => none
        | some remote_ddl =>
            let normalized_remote := normalize_sql remote_ddl
            let normalized_local := normalize_sql p.2.content
            if normalized_remote ≠ normalized_local then
              some { database_name := p.2.database_name,
                     table_name := p.2.table_name,
                     operation := DiffOperation.update,
                     text_diff := some (format_sql_diff p.1
                       normalized_remote normalized_local),
                     change_details := some (detect_changes
                       normalized_remote normalized_local) }
            else none
      .ok (creates ++ deletes ++ updates)

/-- Embeds TableDiff::qualified_name (src/types/diff_result.rs lines
113-116). -/
def table_diff_key (td : TableDiff) : String :=
  td.database_name ++ "." ++ td.table_name

/-- Written from the spec's bucket definitions (section 4.4 steps 1-3):
Create is local minus remote, Delete is remote minus local, a key on both
sides with unequal normalized text is Update, otherwise NoChange. -/
def spec_classify (local_tables : List (String × SqlFile))
    (remote_tables : List (String × String)) (key : String) : DiffOperation :=
  match lookupA local_tables key, lookupA remote_tables key with
  | some _, none => DiffOperation.create
  | none, some _ => DiffOperation.delete
  | some f, some remote_ddl =>
      if normalize_sql remote_ddl = normalize_sql f.content then
        DiffOperation.noChange
      else DiffOperation.update
  | none, none => DiffOperation.noChange

/-! ### Association-list selection lemmas for the partition proof -/

theorem lookupA_mem {α : Type} {k : String} {v : α} :
    ∀ {m : List (String × α)}, lookupA m k = some v → (k, v) ∈ m := by
  intro m
  induction m with
  | nil => intro h; cases h
  | cons p rest ih =>
      obtain ⟨k1, v1⟩ := p
      intro h
      simp only [lookupA] at h
      by_cases hk1 : k1 = k
      · rw [if_pos hk1] at h
        injection h with h2
        subst h2
        subst hk1
        exact List.mem_cons_self _ _
      · rw [if_neg hk1] at h
        exact List.mem_cons_of_mem _ (ih h)

theorem filter_map_filter {α β : Type} (P : α → Bool) (f : α → β)
    (q : β → Bool) :
    ∀ l : List α, ((l.filter P).map f).filter q
      = l.filterMap fun x =>
          if P x then (if q (f x) then some (f x) else none) else none := by
  intro l
  induction l with
  | nil => rfl
  | cons a t ih =>
      by_cases hP : P a
      · by_cases hq : q (f a)
        · simp [List.filter_cons, hP, hq, List.filterMap_cons, ih]
        · simp [List.filter_cons, hP, hq, List.filterMap_cons, ih]
      · simp [List.filter_cons, hP, List.filterMap_cons, ih]

theorem filterMap_filter {α β : Type} (F : α → Option β) (q : β → Bool) :
    ∀ l : List α, (l.filterMap F).filter q
      = l.filterMap fun x => (F x).filter q := by
  intro l
  induction l with
  | nil => rfl
  | cons a t ih =>
      cases hF : F a with
      | none => simp [List.filterMap_cons, hF, Option.filter, ih]
      | some b =>
          by_cases hq : q b
          · simp [List.filterMap_cons, hF, Option.filter, hq,
              List.filter_cons, ih]
          · simp [List.filterMap_cons, hF, Option.filter, hq,
              List.filter_cons, ih]

theorem assoc_filterMap_key {α β : Type} (k : String)
    (G : String × α → Option β) :
    ∀ m : List (String × α), (keysA m).Nodup →
      (∀ p ∈ m, p.1 ≠ k → G p = none) →
      m.filterMap G = ((lookupA m k).bind fun v => G (k, v)).toList := by
  intro m
  induction m with
  | nil => intro _ _; rfl
  | cons p rest ih =>
      obtain ⟨k1, v1⟩ := p
      intro hnd hG
      simp only [keysA, List.map_cons, List.nodup_cons] at hnd
      by_cases hk1 : k1 = k
      · subst hk1
        have hrest : rest.filterMap G = [] := by
          rw [List.filterMap_eq_nil_iff]
          intro p hp
          refine hG p (List.mem_cons_of_mem _ hp) ?_
          intro hpk
          exact hnd.1 (by rw [← hpk]; exact List.mem_map_of_mem _ hp)
        cases hGv : G (k1, v1) with
        | none =>
            simp [List.filterMap_cons, hGv, lookupA, hrest]
        | some b =>
            simp [List.filterMap_cons, hGv, lookupA, hrest]
      · simp only [List.filterMap_cons,
          hG (k1, v1) (List.mem_cons_self _ _) hk1, lookupA, if_neg hk1]
        exact ih hnd.2 fun p hp => hG p (List.mem_cons_of_mem _ hp)

theorem delete_diff_of_eq {key db table : String}
    (h : parse_table_key key = .ok (db, table)) :
    delete_diff_of key
      = { database_name := db, table_name := table,
          operation := DiffOperation.delete, text_diff := none,
          change_details := none } := by
  unfold delete_diff_of
  rw [h]

theorem delete_diffs_ok (local_tables : List (String × SqlFile)) :
    ∀ remote_tables : List (String × String),
      (∀ p ∈ remote_tables, ∃ db table,
        parse_table_key p.1 = .ok (db, table)) →
      delete_diffs local_tables remote_tables
        = .ok ((remote_tables.filter
            fun p => !(containsKeyA local_tables p.1)).map
              fun p => delete_diff_of p.1) := by
  intro rt
  induction rt with
  | nil => intro _; rfl
  | cons p rest ih =>
      intro hparse
      by_cases hc : containsKeyA local_tables p.1
      · simp only [delete_diffs, if_pos hc, List.filter_cons]
        rw [ih fun x hx => hparse x (List.mem_cons_of_mem _ hx)]
        simp [hc]
      · obtain ⟨db, table, hp⟩ := hparse p (List.mem_cons_self _ _)
        simp only [delete_diffs, if_neg hc, hp]
        rw [ih fun x hx => hparse x (List.mem_cons_of_mem _ hx)]
        simp [List.filter_cons, hc, delete_diff_of_eq hp]

/-- The Create entry built for a local-only table. -/
def create_diff_of (p : String × SqlFile) : TableDiff :=
  { database_name := p.2.database_name, table_name := p.2.table_name,
    operation := DiffOperation.create, text_diff := none,
    change_details := none }

/-- The optional Update entry built for a local table against the remote
map. -/
def update_diff_of (remote_tables : List (String × String))
    (p : String × SqlFile) : Option TableDiff :=
  match lookupA remote_tables p.1 with
  | none => none
  | some remote_ddl =>
      let normalized_remote := normalize_sql remote_ddl
      let normalized_local := normalize_sql p.2.content
      if normalized_remote ≠ normalized_local then
        some { database_name := p.2.database_name,
               table_name := p.2.table_name,
               operation := DiffOperation.update,
               text_diff := some (format_sql_diff p.1
                 normalized_remote normalized_local),
               change_details := some (detect_changes
                 normalized_remote normalized_local) }
      else none

theorem compute_table_diffs_ok (local_tables : List (String × SqlFile))
    (remote_tables : List (String × String))
    (hparse : ∀ p ∈ remote_tables, ∃ db table,
      parse_table_key p.1 = .ok (db, table)) :
    compute_table_diffs local_tables remote_tables
      = .ok (((local_tables.filter
            fun p => !(containsKeyA remote_tables p.1)).map create_diff_of)
          ++ ((remote_tables.filter
            fun p => !(containsKeyA local_tables p.1)).map
              fun p => delete_diff_of p.1)
          ++ (local_tables.filterMap (update_diff_of remote_tables))) := by
  unfold compute_table_diffs create_diff_of update_diff_of
  rw [delete_diffs_ok local_tables remote_tables hparse]

/-- C1: in a diff run over well-formed table maps, every key appears in
exactly one operation bucket: the computed diff list has exactly one entry
for the key, with operation Create when the key is local-only, Delete when
remote-only, Update when present on both sides with unequal normalized DDL,
and no entry when present on both sides with equal normalized DDL (the
NoChange bucket); in particular the Create, Delete and Update buckets are
pairwise disjoint and together with NoChange they cover every key of the
union of the two maps. -/
theorem c1_partition (local_tables : List (String × SqlFile))
    (remote_tables : List (String × String)) (diffs : List TableDiff)
    (hnd_l : (keysA local_tables).Nodup)
    (hnd_r : (keysA remote_tables).Nodup)
    (hloc : ∀ p ∈ local_tables,
      p.1 = p.2.database_name ++ "." ++ p.2.table_name)
    (hrem : ∀ p ∈ remote_tables, ∃ db table,
      parse_table_key p.1 = .ok (db, table) ∧ p.1 = db ++ "." ++ table)
    (h : compute_table_diffs local_tables remote_tables = .ok diffs)
    (k : String)
    (_hk : k ∈ keysA local_tables ∨ k ∈ keysA remote_tables) :
    (diffs.filter fun td => table_diff_key td == k).map TableDiff.operation
      = match spec_classify local_tables remote_tables k with
        | DiffOperation.noChange => []
        | op => [op] := by
  rw [compute_table_diffs_ok local_tables remote_tables
    (fun p hp => (hrem p hp).imp fun db hdb =>
      hdb.imp fun table ht => ht.1)] at h
  injection h with h
  subst h
  rw [List.filter_append, List.filter_append, List.map_append,
    List.map_append]
  have e1 : (((local_tables.filter
        fun p => !(containsKeyA remote_tables p.1)).map create_diff_of).filter
          fun td => table_diff_key td == k)
      = ((lookupA local_tables k).bind fun v =>
          if !(containsKeyA remote_tables (k, v).1) then
            (if (table_diff_key (create_diff_of (k, v)) == k) then
              some (create_diff_of (k, v)) else none)
          else none).toList := by
    rw [filter_map_filter]
    refine assoc_filterMap_key k _ local_tables hnd_l ?_
    intro p hp hne
    have hq : (table_diff_key (create_diff_of p) == k) = false := by
      have hkey : table_diff_key (create_diff_of p) = p.1 := by
        unfold table_diff_key create_diff_of
        exact (hloc p hp).symm
      rw [hkey]
      exact beq_eq_false_iff_ne.mpr hne
    rw [hq]
    simp
  have e2 : (((remote_tables.filter
        fun p => !(containsKeyA local_tables p.1)).map
          fun p => delete_diff_of p.1).filter
            fun td => table_diff_key td == k)
      = ((lookupA remote_tables k).bind fun v =>
          if !(containsKeyA local_tables (k, v).1) then
            (if (table_diff_key (delete_diff_of (k, v).1) == k) then
              some (delete_diff_of (k, v).1) else none)
          else none).toList := by
    rw [filter_map_filter]
    refine assoc_filterMap_key k _ remote_tables hnd_r ?_
    intro p hp hne
    have hq : (table_diff_key (delete_diff_of p.1) == k) = false := by
      obtain ⟨db, table, hparse, hkeq⟩ := hrem p hp
      rw [delete_diff_of_eq hparse]
      have : table_diff_key
          { database_name := db, table_name := table,
            operation := DiffOperation.delete, text_diff := none,
            change_details := none } = p.1 := hkeq.symm
      rw [this]
      exact beq_eq_false_iff_ne.mpr hne
    rw [hq]
    simp
  have e3 : ((local_tables.filterMap (update_diff_of remote_tables)).filter
        fun td => table_diff_key td == k)
      = ((lookupA local_tables k).bind fun v =>
          (update_diff_of remote_tables (k, v)).filter
            fun td => table_diff_key td == k).toList := by
    rw [filterMap_filter]
    refine assoc_filterMap_key k _ local_tables hnd_l ?_
    intro p hp hne
    unfold update_diff_of
    cases hr : lookupA remote_tables p.1
    · rfl
    · simp only
      split
      · rename_i hneq
        simp only [Option.filter]
        rw [if_neg]
        intro hq
        refine hne ?_
        have hkey : p.1 = p.2.database_name ++ "." ++ p.2.table_name :=
          hloc p hp
        rw [hkey]
        exact eq_of_beq hq
      · rfl
  rw [e1, e2, e3]
  cases hl : lookupA local_tables k with
  | none =>
      cases hr : lookupA remote_tables k with
      | none => simp [spec_classify, hl, hr]
      | some remote_ddl =>
          obtain ⟨db, table, hparse, hkeq⟩ :=
            hrem (k, remote_ddl) (lookupA_mem hr)
          simp only at hkeq
          simp [spec_classify, hl, hr, containsKeyA,
            delete_diff_of_eq hparse, table_diff_key, ← hkeq]
  | some f =>
      have hkey : k = f.database_name ++ "." ++ f.table_name :=
        hloc (k, f) (lookupA_mem hl)
      cases hr : lookupA remote_tables k with
      | none =>
          simp [spec_classify, hl, hr, containsKeyA, create_diff_of,
            table_diff_key, update_diff_of, Option.filter, ← hkey]
      | some remote_ddl =>
          by_cases heq : normalize_sql remote_ddl = normalize_sql f.content
          · simp [spec_classify, hl, hr, containsKeyA, update_diff_of,
              Option.filter, heq]
          · simp [spec_classify, hl, hr, containsKeyA, update_diff_of,
              Option.filter, table_diff_key, heq, ← hkey]

def c1Local : List (String × SqlFile) :=
  [("sales.customers",
    ⟨"sales", "customers", "sales/customers.sql", "CREATE TABLE c (id int)"⟩),
   ("sales.orders", ⟨"sales", "orders", "sales/orders.sql", "SAME"⟩)]

def c1Remote : List (String × String) :=
  [("sales.orders", "SAME"), ("sales.renamed", "Z")]

def c1Diffs : List TableDiff :=
  [⟨"sales", "customers", DiffOperation.create, none, none⟩,
   ⟨"sales", "renamed", DiffOperation.delete, none, none⟩]

/-- C1 witness: on a concrete run with a local-only, a remote-only and an
unchanged shared table, the key of the local-only table lands in exactly the
Create bucket. -/
theorem c1_partition_witness :
    (c1Diffs.filter
        fun td => table_diff_key td == "sales.customers").map
          TableDiff.operation
      = match spec_classify c1Local c1Remote "sales.customers" with
        | DiffOperation.noChange => []
        | op => [op] :=
  c1_partition c1Local c1Remote c1Diffs (by decide) (by decide) (by decide)
    (by
      intro p hp
      rcases List.mem_cons.mp hp with h | h
      · refine ⟨"sales", "orders", ?_, ?_⟩ <;> rw [h] <;> rfl
      · rcases List.mem_cons.mp h with h2 | h2
        · refine ⟨"sales", "renamed", ?_, ?_⟩ <;> rw [h2] <;> rfl
        · cases h2)
    rfl "sales.customers" (by decide)

/-! ## Structured serialization (src/types/diff_result.rs lines 3-63)

DiffResult and its component types derive Serialize and Deserialize; the
serde_json data format encodes a struct as an object keyed by the Rust field
names, an Option as null or the inner value, a Vec as an array, a usize as a
number, and a fieldless enum variant as its variant-name string. The encoder
and decoder below embed that derived instance. -/

inductive Json where
  | null
  | bool (b : Bool)
  | num (n : Nat)
  | str (s : String)
  | arr (items : List Json)
  | obj (fields : List (String × Json))

def optionToJson {α : Type} (f : α → Json) : Option α → Json
  | none => Json.null
  | some a => f a

def strOptToJson : Option String → Json := optionToJson Json.str

def ColumnChangeType.toJson : ColumnChangeType → Json
  | .added => .str "Added"
  | .removed => .str "Removed"
  | .typeChanged => .str "TypeChanged"

def DiffOperation.toJson : DiffOperation → Json
  | .create => .str "Create"
  | .update => .str "Update"
  | .delete => .str "Delete"
  | .noChange => .str "NoChange"

def ColumnChange.toJson (c : ColumnChange) : Json :=
  .obj [("change_type", c.change_type.toJson),
        ("column_name", .str c.column_name),
        ("old_type", strOptToJson c.old_type),
        ("new_type", strOptToJson c.new_type)]

def PropertyChange.toJson (c : PropertyChange) : Json :=
  .obj [("property_name", .str c.property_name),
        ("old_value", strOptToJson c.old_value),
        ("new_value", strOptToJson c.new_value)]

def ChangeDetails.toJson (c : ChangeDetails) : Json :=
  .obj [("column_changes", .arr (c.column_changes.map ColumnChange.toJson)),
        ("property_changes",
          .arr (c.property_changes.map PropertyChange.toJson))]

def TableDiff.toJson (t : TableDiff) : Json :=
  .obj [("database_name", .str t.database_name),
        ("table_name", .str t.table_name),
        ("operation", t.operation.toJson),
        ("text_diff", strOptToJson t.text_diff),
        ("change_details", optionToJson ChangeDetails.toJson t.change_details)]

def DiffSummary.toJson (s : DiffSummary) : Json :=
  .obj [("to_add", .num s.to_add),
        ("to_change", .num s.to_change),
        ("to_destroy", .num s.to_destroy)]

def DiffResult.toJson (r : DiffResult) : Json :=
  .obj [("no_change", .bool r.no_change),
        ("summary", r.summary.toJson),
        ("table_diffs", .arr (r.table_diffs.map TableDiff.toJson))]

def Json.asStr : Json → Option String
  | .str s => some s
  | _ => none

def Json.asNat : Json → Option Nat
  | .num n => some n
  | _ => none

def Json.asBool : Json → Option Bool
  | .bool b => some b
  | _ => none

def strOptFromJson : Json → Option (Option String)
  | .null => some none
  | .str s => some (some s)
  | _ => none

def ColumnChangeType.fromJson : Json → Option ColumnChangeType
  | .str "Added" => some .added
  | .str "Removed" => some .removed
  | .str "TypeChanged" => some .typeChanged
  | _ => none

def DiffOperation.fromJson : Json → Option DiffOperation
  | .str "Create" => some .create
  | .str "Update" => some .update
  | .str "Delete" => some .delete
  | .str "NoChange" => some .noChange
  | _ => none

def mapMOpt {α : Type} (f : Json → Option α) : List Json → Option (List α)
  | [] => some []
  | j :: rest => do
      let a ← f j
      let as ← mapMOpt f rest
      pure (a :: as)

def listFromJson {α : Type} (f : Json → Option α) : Json → Option (List α)
  | .arr items => mapMOpt f items
  | _ => none

def ColumnChange.fromJson : Json → Option ColumnChange
  | .obj fields => do
      let j1 ← lookupA fields "change_type"
      let change_type ← ColumnChangeType.fromJson j1
      let j2 ← lookupA fields "column_name"
      let column_name ← j2.asStr
      let j3 ← lookupA fields "old_type"
      let old_type ← strOptFromJson j3
      let j4 ← lookupA fields "new_type"
      let new_type ← strOptFromJson j4
      pure ⟨change_type, column_name, old_type, new_type⟩
  | _ => none

def PropertyChange.fromJson : Json → Option PropertyChange
  | .obj fields => do
      let j1 ← lookupA fields "property_name"
      let property_name ← j1.asStr
      let j2 ← lookupA fields "old_value"
      let old_value ← strOptFromJson j2
      let j3 ← lookupA fields "new_value"
      let new_value ← strOptFromJson j3
      pure ⟨property_name, old_value, new_value⟩
  | _ => none

def ChangeDetails.fromJson : Json → Option ChangeDetails
  | .obj fields => do
      let j1 ← lookupA fields "column_changes"
      let column_changes ← listFromJson ColumnChange.fromJson j1
      let j2 ← lookupA fields "property_changes"
      let property_changes ← listFromJson PropertyChange.fromJson j2
      pure ⟨column_changes, property_changes⟩
  | _ => none

def cdOptFromJson : Json → Option (Option ChangeDetails)
  | .null => some none
  | j => (ChangeDetails.fromJson j).map some

def TableDiff.fromJson : Json → Option TableDiff
  | .obj fields => do
      let j1 ← lookupA fields "database_name"
      let database_name ← j1.asStr
      let j2 ← lookupA fields "table_name"
      let table_name ← j2.asStr
      let j3 ← lookupA fields "operation"
      let operation ← DiffOperation.fromJson j3
      let j4 ← lookupA fields "text_diff"
      let text_diff ← strOptFromJson j4
      let j5 ← lookupA fields "change_details"
      let change_details ← cdOptFromJson j5
      pure ⟨database_name, table_name, operation, text_diff, change_details⟩
  | _ => none

def DiffSummary.fromJson : Json → Option DiffSummary
  | .obj fields => do
      let j1 ← lookupA fields "to_add"
      let to_add ← j1.asNat
      let j2 ← lookupA fields "to_change"
      let to_change ← j2.asNat
      let j3 ← lookupA fields "to_destroy"
      let to_destroy ← j3.asNat
      pure ⟨to_add, to_change, to_destroy⟩
  | _ => none

def DiffResult.fromJson : Json → Option DiffResult
  | .obj fields => do
      let j1 ← lookupA fields "no_change"
      let no_change ← j1.asBool
      let j2 ← lookupA fields "summary"
      let summary ← DiffSummary.fromJson j2
      let j3 ← lookupA fields "table_diffs"
      let table_diffs ← listFromJson TableDiff.fromJson j3
      pure ⟨no_change, summary, table_diffs⟩
  | _ => none

/-! ### Round-trip lemmas -/

theorem mapM_roundtrip {α : Type} (f : Json → Option α) (g : α → Json)
    (h : ∀ a, f (g a) = some a) :
    ∀ l : List α, mapMOpt f (l.map g) = some l := by
  intro l
  induction l with
  | nil => rfl
  | cons a t ih => simp [mapMOpt, h, ih]

theorem cct_roundtrip (c : ColumnChangeType) :
    ColumnChangeType.fromJson c.toJson = some c := by
  cases c <;> rfl

theorem dop_roundtrip (o : DiffOperation) :
    DiffOperation.fromJson o.toJson = some o := by
  cases o <;> rfl

theorem strOpt_roundtrip (o : Option String) :
    strOptFromJson (strOptToJson o) = some o := by
  cases o <;> rfl

theorem cc_roundtrip (c : ColumnChange) :
    ColumnChange.fromJson c.toJson = some c := by
  obtain ⟨ct, cn, ot, nt⟩ := c
  cases ct <;> cases ot <;> cases nt <;> rfl

theorem pc_roundtrip (c : PropertyChange) :
    PropertyChange.fromJson c.toJson = some c := by
  obtain ⟨pn, ov, nv⟩ := c
  cases ov <;> cases nv <;> rfl

theorem cd_roundtrip (c : ChangeDetails) :
    ChangeDetails.fromJson c.toJson = some c := by
  obtain ⟨ccs, pcs⟩ := c
  simp [ChangeDetails.toJson, ChangeDetails.fromJson, lookupA, listFromJson,
    mapM_roundtrip _ _ cc_roundtrip, mapM_roundtrip _ _ pc_roundtrip]

theorem cdOpt_roundtrip (o : Option ChangeDetails) :
    cdOptFromJson (optionToJson ChangeDetails.toJson o) = some o := by
  cases o with
  | none => rfl
  | some c =>
      obtain ⟨ccs, pcs⟩ := c
      have h1 : cdOptFromJson
            (optionToJson ChangeDetails.toJson (some ⟨ccs, pcs⟩))
          = (ChangeDetails.fromJson
              (ChangeDetails.toJson ⟨ccs, pcs⟩)).map some := rfl
      rw [h1, cd_roundtrip ⟨ccs, pcs⟩]
      rfl

theorem td_roundtrip (t : TableDiff) :
    TableDiff.fromJson t.toJson = some t := by
  obtain ⟨db, tb, op, txt, cd⟩ := t
  simp [TableDiff.toJson, TableDiff.fromJson, lookupA, Json.asStr,
    dop_roundtrip, strOpt_roundtrip, cdOpt_roundtrip]

theorem ds_roundtrip (s : DiffSummary) :
    DiffSummary.fromJson s.toJson = some s := by
  obtain ⟨a, c, d⟩ := s
  rfl

/-- C9: serializing a DiffResult to its structured JSON form and parsing it
back yields the original value: the no_change flag, the summary counts, and
every table diff with its operation, text diff and change details are
preserved. -/
theorem c9_diff_result_roundtrip (r : DiffResult) :
    DiffResult.fromJson r.toJson = some r := by
  obtain ⟨nc, summary, tds⟩ := r
  simp [DiffResult.toJson, DiffResult.fromJson, lookupA, Json.asBool,
    ds_roundtrip, listFromJson, mapM_roundtrip _ _ td_roundtrip]

end Athenadef
